import Mathlib

/-!
Shallow embedding of the immutable_string library (matrohin/immutable_string).

The public header immutable_string/string.hpp is not part of the sources at
hand; the definitions below are modelled from the natural-language
specification of the library, and pinned by the behaviour required by the
unit tests in src/unittests/stringtest.cpp wherever those tests observe it.

Characters are modelled as natural-number code units.  A raw character
sequence (a C string) is a list of code units; its logical content stops at
the first zero code unit, mirroring the null terminator.

The allocator-aware shared-buffer layer is modelled by an explicit heap
threaded through the operations: buffers live at numeric addresses, address
zero is the canonical empty singleton buffer, and every allocation bumps an
allocation counter (mirroring the counting allocator of the unit tests).
-/

namespace ImmutStr

/-- Character code units. -/
abbrev Ch := Nat

/-- Modelled from the spec: the logical content of a null-terminated raw
sequence is everything before the first zero code unit (the terminator). -/
def cstrChars (cs : List Ch) : List Ch := cs.takeWhile (fun c => c ≠ 0)

/-- Modelled from the spec: the shared-buffer heap.  `allocCount` counts
calls to the allocator (mirroring allocator_with_count of the unit tests),
`bufs` holds the character content of each allocated buffer (address of the
buffer stored at list index a is a + 1; address 0 is reserved for the
canonical empty singleton buffer), and `refs` holds the reference count of
each address. -/
structure Heap where
  allocCount : Nat
  bufs : List (List Ch)
  refs : Nat → Nat

/-- Content of the buffer at an address: the empty singleton at address 0,
otherwise the stored character list. -/
def Heap.contents (h : Heap) : Nat → List Ch
  | 0 => []
  | a + 1 => h.bufs.getD a []

/-- The next fresh buffer address. -/
def Heap.nextAddr (h : Heap) : Nat := h.bufs.length + 1

/-- Modelled from the spec: acquire allocates one new buffer holding the
given characters (plus the implicit terminator), with reference count 1;
the allocation counter increases by one. -/
def Heap.acquire (h : Heap) (chars : List Ch) : Heap × Nat :=
  (⟨h.allocCount + 1, h.bufs ++ [chars], Function.update h.refs h.nextAddr 1⟩,
   h.nextAddr)

/-- Modelled from the spec: retain increments the reference count; it never
allocates.  The count of the pinned empty singleton is bypassed. -/
def Heap.retain (h : Heap) (a : Nat) : Heap :=
  if a = 0 then h else ⟨h.allocCount, h.bufs, Function.update h.refs a (h.refs a + 1)⟩

/-- Modelled from the spec: release decrements the reference count; the
deallocation performed when the count reaches zero does not touch the
allocation counter.  The pinned empty singleton is bypassed. -/
def Heap.release (h : Heap) (a : Nat) : Heap :=
  if a = 0 then h else ⟨h.allocCount, h.bufs, Function.update h.refs a (h.refs a - 1)⟩

/-- Modelled from the spec: a string is a handle to a shared buffer; a
moved-from string holds the null handle. -/
structure ImmString where
  handle : Option Nat

/-- The data pointer of a string: the address of its buffer, or none for
the null pointer of a moved-from string. -/
def ImmString.data (s : ImmString) : Option Nat := s.handle

/-- The characters a string denotes in a given heap (empty for a moved-from
string, per the spec the moved-from state has size 0). -/
def strChars (h : Heap) (s : ImmString) : List Ch :=
  match s.handle with
  | none => []
  | some a => h.contents a

/-- size() of a string. -/
def strSize (h : Heap) (s : ImmString) : Nat := (strChars h s).length

/-- length() of a string: identical to size(). -/
def strLength (h : Heap) (s : ImmString) : Nat := strSize h s

/-- empty() of a string. -/
def strIsEmpty (h : Heap) (s : ImmString) : Bool := strSize h s == 0

/-- c_str() viewed as the characters before the terminator; strcmp of
c_str() against a literal compares these lists. -/
def cStr (h : Heap) (s : ImmString) : List Ch := strChars h s

/-- The string bound to the canonical empty singleton buffer. -/
def emptyString : ImmString := ⟨some 0⟩

/-- Modelled from the spec: the default constructor binds to the empty
singleton and does not touch the heap. -/
def mkDefault : ImmString := emptyString

/-- Modelled from the unit test (stringtest.cpp lines 87 to 89 and 121 to
123): constructing a string from an allocator instance alone performs one
allocation of an empty buffer, observed by the allocation count rising by
one. -/
def mkWithAlloc (h : Heap) : Heap × ImmString :=
  let p := h.acquire []
  (p.1, ⟨some p.2⟩)

/-- Modelled from the spec: construction from a character sequence plus an
explicit count takes the first count characters; a zero count binds to the
empty singleton with no allocation, otherwise one buffer is acquired. -/
def fromSeqCount (h : Heap) (cs : List Ch) (n : Nat) : Heap × ImmString :=
  if n = 0 then (h, emptyString)
  else
    let p := h.acquire (cs.take n)
    (p.1, ⟨some p.2⟩)

/-- Modelled from the spec: construction from a null-terminated sequence
infers the length by scanning to the terminator. -/
def fromCStr (h : Heap) (cs : List Ch) : Heap × ImmString :=
  fromSeqCount h cs (cstrChars cs).length

/-- Modelled from the spec: construction from a repeat count and a fill
character; a zero count binds to the empty singleton with no allocation. -/
def fromRepeat (h : Heap) (n : Nat) (c : Ch) : Heap × ImmString :=
  if n = 0 then (h, emptyString)
  else
    let p := h.acquire (List.replicate n c)
    (p.1, ⟨some p.2⟩)

/-- Modelled from the spec: copy construction retains the source buffer and
aliases its handle; it never allocates. -/
def copyCons (h : Heap) (src : ImmString) : Heap × ImmString :=
  match src.handle with
  | none => (h, ⟨none⟩)
  | some a => (h.retain a, ⟨some a⟩)

/-- Modelled from the spec: copy assignment retains the new buffer, then
releases the previously held one (retain-before-release ordering makes
assignment to self safe); it never allocates. -/
def copyAssign (h : Heap) (dst src : ImmString) : Heap × ImmString :=
  let h1 := match src.handle with
    | none => h
    | some a => h.retain a
  let h2 := match dst.handle with
    | none => h1
    | some a => h1.release a
  (h2, ⟨src.handle⟩)

/-- Modelled from the spec: move construction transfers the handle without
touching any reference count; the source is reset to the null handle.  The
result pair is (destination, source after the move). -/
def moveCons (src : ImmString) : ImmString × ImmString :=
  (⟨src.handle⟩, ⟨none⟩)

/-- Modelled from the spec: move assignment releases the buffer previously
held by the destination, transfers the handle of the source, and resets the
source to the null handle; it never allocates.  The result is the heap, the
destination and the source after the move. -/
def moveAssign (h : Heap) (dst src : ImmString) : Heap × ImmString × ImmString :=
  let h1 := match dst.handle with
    | none => h
    | some a => h.release a
  (h1, ⟨src.handle⟩, ⟨none⟩)

/-- Modelled from the spec: bounds-checked element access over the
character content; the none result stands for the OutOfRange signal raised
when the position is not below the size. -/
def strAt (v : List Ch) (pos : Nat) : Option Ch :=
  if pos < v.length then some (v.getD pos 0) else none

/-- Modelled from the spec: unchecked element access reads the backing
array, which holds the characters followed by the zero terminator; at the
position equal to the size it therefore yields the zero sentinel. -/
def subscriptChar (v : List Ch) (pos : Nat) : Ch := (v ++ [0]).getD pos 0

/-- front(): the first character. -/
def strFront (v : List Ch) : Ch := v.getD 0 0

/-- back(): the last character. -/
def strBack (v : List Ch) : Ch := v.getD (v.length - 1) 0

/-- Modelled from the spec: three-way lexicographic comparison over code
units; negative or positive at the first differing character, otherwise
decided by length when one operand is a prefix of the other. -/
def strCompare : List Ch → List Ch → Int
  | [], [] => 0
  | [], _ :: _ => -1
  | _ :: _, [] => 1
  | a :: as, b :: bs =>
    if a < b then -1 else if b < a then 1 else strCompare as bs

/-- Equality operator, derived from the sign of compare. -/
def eqS (a b : List Ch) : Bool := strCompare a b == 0

/-- Inequality operator, derived from the sign of compare. -/
def neS (a b : List Ch) : Bool := !(strCompare a b == 0)

/-- Less-than operator, derived from the sign of compare. -/
def ltS (a b : List Ch) : Bool := decide (strCompare a b < 0)

/-- Less-or-equal operator, derived from the sign of compare. -/
def leS (a b : List Ch) : Bool := decide (strCompare a b ≤ 0)

/-- Greater-than operator, derived from the sign of compare. -/
def gtS (a b : List Ch) : Bool := decide (0 < strCompare a b)

/-- Greater-or-equal operator, derived from the sign of compare. -/
def geS (a b : List Ch) : Bool := decide (0 ≤ strCompare a b)

/-- compare of a string against a raw null-terminated sequence. -/
def cmpWithCStr (v : List Ch) (r : List Ch) : Int := strCompare v (cstrChars r)

/-- Modelled from the spec: comparison of a raw null-terminated sequence
against a string (the mirrored operand order of the free operators). -/
def cmpCStrWith (r : List Ch) (v : List Ch) : Int := strCompare (cstrChars r) v

/-- Modelled from the spec: position of the first occurrence of the
pattern t as a contiguous leading-anchored scan of the haystack; none when
absent. -/
def findList (t : List Ch) : List Ch → Option Nat
  | [] => if t.isEmpty then some 0 else none
  | c :: rest =>
    if t.isPrefixOf (c :: rest) then some 0
    else (findList t rest).map (fun k => k + 1)

/-- Modelled from the spec: find returns the lowest position at or after
pos where the pattern occurs; a starting offset beyond the size yields
not-found rather than an error.  none stands for the npos sentinel. -/
def findFrom (s t : List Ch) (pos : Nat) : Option Nat :=
  if pos ≤ s.length then (findList t (s.drop pos)).map (fun k => k + pos)
  else none

/-- find overload for a single character. -/
def findChar (s : List Ch) (c : Ch) (pos : Nat) : Option Nat :=
  findFrom s [c] pos

/-- find overload for a raw null-terminated sequence. -/
def findRaw (s seq : List Ch) (pos : Nat) : Option Nat :=
  findFrom s (cstrChars seq) pos

/-- Modelled from the spec: find overload for a raw sequence with an
explicit length limit n; only the first n characters of the sequence form
the pattern. -/
def findRawN (s seq : List Ch) (pos n : Nat) : Option Nat :=
  findFrom s (seq.take n) pos

/-- Forward iteration over [begin, end): reading every position of the
backing storage in order. -/
def iterChars (v : List Ch) : List Ch :=
  (List.range v.length).map (fun i => subscriptChar v i)

/-- Reverse iteration over [rbegin, rend): reading every position of the
backing storage from the last character down. -/
def riterChars (v : List Ch) : List Ch :=
  (List.range v.length).map (fun i => subscriptChar v (v.length - 1 - i))

theorem contents_retain (h : Heap) (a b : Nat) :
    (h.retain a).contents b = h.contents b := by
  unfold Heap.retain
  split
  · rfl
  · cases b <;> rfl

theorem contents_release (h : Heap) (a b : Nat) :
    (h.release a).contents b = h.contents b := by
  unfold Heap.release
  split
  · rfl
  · cases b <;> rfl

theorem allocCount_retain (h : Heap) (a : Nat) :
    (h.retain a).allocCount = h.allocCount := by
  unfold Heap.retain
  split <;> rfl

theorem allocCount_release (h : Heap) (a : Nat) :
    (h.release a).allocCount = h.allocCount := by
  unfold Heap.release
  split <;> rfl

@[simp] theorem strChars_retain (h : Heap) (a : Nat) (s : ImmString) :
    strChars (h.retain a) s = strChars h s := by
  obtain ⟨hs⟩ := s
  cases hs with
  | none => rfl
  | some b => exact contents_retain h a b

@[simp] theorem strChars_release (h : Heap) (a : Nat) (s : ImmString) :
    strChars (h.release a) s = strChars h s := by
  obtain ⟨hs⟩ := s
  cases hs with
  | none => rfl
  | some b => exact contents_release h a b

/-- C1: for every String a, copy construction or copy assignment b = a
yields the identical backing address in b.data(), the same size, and an
unchanged allocation count of the allocator. -/
theorem copy_law (h : Heap) (a dst : ImmString) :
    (copyCons h a).2.data = a.data ∧
    strSize (copyCons h a).1 (copyCons h a).2 = strSize h a ∧
    (copyCons h a).1.allocCount = h.allocCount ∧
    (copyAssign h dst a).2.data = a.data ∧
    strSize (copyAssign h dst a).1 (copyAssign h dst a).2 = strSize h a ∧
    (copyAssign h dst a).1.allocCount = h.allocCount := by
  obtain ⟨ha⟩ := a
  obtain ⟨hd⟩ := dst
  cases ha <;> cases hd <;>
    simp [copyCons, copyAssign, ImmString.data, strSize,
      allocCount_retain, allocCount_release]

/-- C2: after move construction or move assignment from a, the destination
holds the original backing address of a, the source holds the null pointer
(never the destination buffer) and has size 0, and the allocation count is
unchanged (move construction does not touch the heap at all). -/
theorem move_law (h : Heap) (a dst : ImmString) :
    (moveCons a).1.data = a.data ∧
    (moveCons a).2.data = none ∧
    strSize h (moveCons a).2 = 0 ∧
    (moveAssign h dst a).2.1.data = a.data ∧
    (moveAssign h dst a).2.2.data = none ∧
    strSize (moveAssign h dst a).1 (moveAssign h dst a).2.2 = 0 ∧
    (moveAssign h dst a).1.allocCount = h.allocCount := by
  obtain ⟨hd⟩ := dst
  cases hd <;>
    simp [moveCons, moveAssign, ImmString.data, strSize, strChars,
      allocCount_release]

/-- C3 counterexample: constructing an empty string from an allocator
instance alone does change the allocation count; on a heap where one buffer
has been allocated the count rises from 1 to 2, exactly as the unit test
requires at stringtest.cpp lines 87 to 89. -/
theorem empty_alloc_count_changes :
    ¬ ((mkWithAlloc ⟨1, [[116, 101, 115, 116]], fun _ => 0⟩).1.allocCount
        = (1 : Nat)) := by
  decide

/-- C3 (amended): default construction and every zero-length construction
from content (empty sequence, explicit count 0, repeat-count 0) bind to the
empty singleton and leave the heap, hence the allocation count, untouched;
construction from an allocator instance alone instead performs exactly one
allocation. -/
theorem empty_construction_allocations (h : Heap) (cs : List Ch) (c : Ch) :
    (fromSeqCount h cs 0).1 = h ∧ (fromSeqCount h cs 0).2 = mkDefault ∧
    (fromCStr h []).1 = h ∧ (fromCStr h []).2 = mkDefault ∧
    (fromRepeat h 0 c).1 = h ∧ (fromRepeat h 0 c).2 = mkDefault ∧
    (mkWithAlloc h).1.allocCount = h.allocCount + 1 := by
  simp [fromSeqCount, fromCStr, fromRepeat, mkWithAlloc, Heap.acquire,
    mkDefault, emptyString, cstrChars]

/-- C4: a default-constructed string, a string built from the empty
sequence, a string built from any sequence with explicit length 0 and a
string built with repeat-count 0 are mutually equal, and each reports
size 0, length 0, empty, and a c_str equal to the empty terminator
string. -/
theorem emptiness_law (h : Heap) (cs : List Ch) (c : Ch) :
    eqS (cStr h mkDefault) (cStr (fromCStr h []).1 (fromCStr h []).2) = true ∧
    eqS (cStr (fromCStr h []).1 (fromCStr h []).2)
      (cStr (fromSeqCount h cs 0).1 (fromSeqCount h cs 0).2) = true ∧
    eqS (cStr (fromSeqCount h cs 0).1 (fromSeqCount h cs 0).2)
      (cStr (fromRepeat h 0 c).1 (fromRepeat h 0 c).2) = true ∧
    eqS (cStr (fromRepeat h 0 c).1 (fromRepeat h 0 c).2)
      (cStr h mkDefault) = true ∧
    strSize h mkDefault = 0 ∧
    strSize (fromCStr h []).1 (fromCStr h []).2 = 0 ∧
    strSize (fromSeqCount h cs 0).1 (fromSeqCount h cs 0).2 = 0 ∧
    strSize (fromRepeat h 0 c).1 (fromRepeat h 0 c).2 = 0 ∧
    strLength h mkDefault = 0 ∧
    strLength (fromCStr h []).1 (fromCStr h []).2 = 0 ∧
    strLength (fromSeqCount h cs 0).1 (fromSeqCount h cs 0).2 = 0 ∧
    strLength (fromRepeat h 0 c).1 (fromRepeat h 0 c).2 = 0 ∧
    strIsEmpty h mkDefault = true ∧
    strIsEmpty (fromCStr h []).1 (fromCStr h []).2 = true ∧
    strIsEmpty (fromSeqCount h cs 0).1 (fromSeqCount h cs 0).2 = true ∧
    strIsEmpty (fromRepeat h 0 c).1 (fromRepeat h 0 c).2 = true ∧
    cStr h mkDefault = [] ∧
    cStr (fromCStr h []).1 (fromCStr h []).2 = [] ∧
    cStr (fromSeqCount h cs 0).1 (fromSeqCount h cs 0).2 = [] ∧
    cStr (fromRepeat h 0 c).1 (fromRepeat h 0 c).2 = [] := by
  simp [fromCStr, fromSeqCount, fromRepeat, mkDefault, emptyString,
    cStr, strChars, Heap.contents, strSize, strLength, strIsEmpty,
    eqS, strCompare, cstrChars]

theorem strCompare_antisymm (a : List Ch) :
    ∀ b, strCompare b a = -strCompare a b := by
  induction a with
  | nil => intro b; cases b <;> rfl
  | cons x as ih =>
    intro b
    cases b with
    | nil => rfl
    | cons y bs =>
      by_cases hxy : x < y
      · simp [strCompare, hxy, Nat.lt_asymm hxy]
      · by_cases hyx : y < x
        · simp [strCompare, hxy, hyx]
        · have he : x = y :=
            Nat.le_antisymm (Nat.le_of_not_lt hyx) (Nat.le_of_not_lt hxy)
          subst he
          simp [strCompare, Nat.lt_irrefl, ih bs]

theorem strCompare_eq_zero_iff (a : List Ch) :
    ∀ b, strCompare a b = 0 ↔ a = b := by
  induction a with
  | nil => intro b; cases b <;> simp [strCompare]
  | cons x as ih =>
    intro b
    cases b with
    | nil => simp [strCompare]
    | cons y bs =>
      by_cases hxy : x < y
      · simp [strCompare, hxy, Nat.ne_of_lt hxy]
      · by_cases hyx : y < x
        · simp [strCompare, hxy, hyx, (Nat.ne_of_lt hyx).symm]
        · have he : x = y :=
            Nat.le_antisymm (Nat.le_of_not_lt hyx) (Nat.le_of_not_lt hxy)
          subst he
          simp [strCompare, Nat.lt_irrefl, ih bs]

theorem strCompare_trichotomy (a : List Ch) :
    ∀ b, strCompare a b = -1 ∨ strCompare a b = 0 ∨ strCompare a b = 1 := by
  induction a with
  | nil => intro b; cases b <;> simp [strCompare]
  | cons x as ih =>
    intro b
    cases b with
    | nil => simp [strCompare]
    | cons y bs =>
      by_cases hxy : x < y
      · simp [strCompare, hxy]
      · by_cases hyx : y < x
        · simp [strCompare, hxy, hyx]
        · simpa [strCompare, hxy, hyx] using ih bs

theorem strCompare_of_prefix_ne (a : List Ch) :
    ∀ b, a.isPrefixOf b = true → a ≠ b → strCompare a b = -1 := by
  induction a with
  | nil =>
    intro b hp hne
    cases b with
    | nil => exact absurd rfl hne
    | cons y bs => rfl
  | cons x as ih =>
    intro b hp hne
    cases b with
    | nil => simp [List.isPrefixOf] at hp
    | cons y bs =>
      simp [List.isPrefixOf] at hp
      obtain ⟨hxy, hp2⟩ := hp
      subst hxy
      have hne2 : as ≠ bs := fun hh => hne (by rw [hh])
      simp [strCompare, Nat.lt_irrefl,
        ih bs (List.isPrefixOf_iff_prefix.mpr hp2) hne2]

theorem strCompare_first_diff (x y : Ch) (s t : List Ch) (hxy : x ≠ y) :
    ∀ pre : List Ch,
      strCompare (pre ++ x :: s) (pre ++ y :: t) = if x < y then -1 else 1 := by
  intro pre
  induction pre with
  | nil =>
    by_cases h : x < y
    · simp [strCompare, h]
    · have h2 : y < x :=
        Nat.lt_of_le_of_ne (Nat.le_of_not_lt h) (fun he => hxy he.symm)
      simp [strCompare, h, h2]
  | cons p ps ih =>
    simpa [strCompare, Nat.lt_irrefl] using ih

/-- C5: at returns the character at pos exactly when pos is below the size
and signals OutOfRange (the none result) exactly when pos is at least the
size; the index operator returns the character at pos below the size and
the zero sentinel at pos equal to the size, and never signals. -/
theorem element_access (v : List Ch) (pos : Nat) :
    (pos < v.length → strAt v pos = some (v.getD pos 0) ∧
      subscriptChar v pos = v.getD pos 0) ∧
    (v.length ≤ pos → strAt v pos = none) ∧
    subscriptChar v v.length = 0 := by
  refine ⟨fun h => ⟨?_, ?_⟩, fun h => ?_, ?_⟩
  · simp [strAt, h]
  · simpa [subscriptChar] using List.getD_append v [0] 0 pos h
  · simp [strAt, Nat.not_lt.mpr h]
  · simp [subscriptChar,
      List.getD_append_right v [0] 0 v.length (Nat.le_refl _)]

/-- C5 witness: concrete accesses on the string abcd, as in the unit
test. -/
theorem element_access_witness :
    strAt [97, 98, 99, 100] 1 = some 98 ∧
    subscriptChar [97, 98, 99, 100] 1 = 98 ∧
    strAt [97, 98, 99, 100] 4 = none ∧
    subscriptChar [97, 98, 99, 100] 4 = 0 := by
  obtain ⟨h1, -, -⟩ := element_access [97, 98, 99, 100] 1
  obtain ⟨-, h2, h3⟩ := element_access [97, 98, 99, 100] 4
  obtain ⟨ha, hb⟩ := h1 (by decide)
  exact ⟨by simpa using ha, by simpa using hb, h2 (by decide),
    by simpa using h3⟩

/-- C6: compare is a three-way lexicographic comparison; less, equal and
greater split every pair of operands into exactly one case, every
relational and equality operator agrees with the sign of compare, swapping
the operands mirrors the result (also in the string versus raw sequence
forms), equality by compare is content equality, a proper prefix compares
less, and the first differing character decides the sign. -/
theorem ordering_law (a b r pre s t : List Ch) (x y : Ch) :
    (ltS a b || eqS a b || gtS a b) = true ∧
    (ltS a b && eqS a b) = false ∧
    (ltS a b && gtS a b) = false ∧
    (eqS a b && gtS a b) = false ∧
    (ltS a b = true ↔ strCompare a b < 0) ∧
    (eqS a b = true ↔ strCompare a b = 0) ∧
    (gtS a b = true ↔ 0 < strCompare a b) ∧
    (leS a b = true ↔ strCompare a b ≤ 0) ∧
    (geS a b = true ↔ 0 ≤ strCompare a b) ∧
    (neS a b = true ↔ ¬ strCompare a b = 0) ∧
    strCompare b a = -strCompare a b ∧
    cmpCStrWith r a = -(cmpWithCStr a r) ∧
    (eqS a b = true ↔ a = b) ∧
    (a.isPrefixOf b = true → a ≠ b → strCompare a b = -1) ∧
    (x ≠ y →
      strCompare (pre ++ x :: s) (pre ++ y :: t) = if x < y then -1 else 1) := by
  refine ⟨?_, ?_, ?_, ?_, ?_, ?_, ?_, ?_, ?_, ?_, ?_, ?_, ?_, ?_, ?_⟩
  · rcases strCompare_trichotomy a b with h | h | h <;> simp [ltS, eqS, gtS, h]
  · rcases strCompare_trichotomy a b with h | h | h <;> simp [ltS, eqS, gtS, h]
  · rcases strCompare_trichotomy a b with h | h | h <;> simp [ltS, eqS, gtS, h]
  · rcases strCompare_trichotomy a b with h | h | h <;> simp [ltS, eqS, gtS, h]
  · simp [ltS]
  · simp [eqS]
  · simp [gtS]
  · simp [leS]
  · simp [geS]
  · simp [neS]
  · exact strCompare_antisymm a b
  · simpa [cmpCStrWith, cmpWithCStr] using strCompare_antisymm a (cstrChars r)
  · simpa [eqS] using strCompare_eq_zero_iff a b
  · exact strCompare_of_prefix_ne a b
  · exact fun hxy => strCompare_first_diff x y s t hxy pre

/-- C6 witness: a proper prefix compares less and a first differing
character decides the sign, at concrete operands. -/
theorem ordering_law_witness :
    strCompare [97] [97, 98] = -1 ∧
    strCompare ([97] ++ 98 :: []) ([97] ++ 99 :: []) =
      if (98 : Nat) < 99 then -1 else 1 := by
  obtain ⟨-, -, -, -, -, -, -, -, -, -, -, -, -, h14, h15⟩ :=
    ordering_law [97] [97, 98] [100] [97] [] [] 98 99
  exact ⟨h14 (by decide) (by decide), h15 (by decide)⟩

theorem findList_of_isPrefixOf (t u : List Ch) (hp : t.isPrefixOf u = true) :
    findList t u = some 0 := by
  cases u with
  | nil =>
    have ht : t = [] := by
      cases t with
      | nil => rfl
      | cons c cs => simp [List.isPrefixOf] at hp
    subst ht
    rfl
  | cons c rest => simp [findList, hp]

theorem findList_le_of_prefix_drop (t : List Ch) :
    ∀ (i : Nat) (u : List Ch), t.isPrefixOf (u.drop i) = true →
      ∃ k, findList t u = some k ∧ k ≤ i := by
  intro i
  induction i with
  | zero =>
    intro u hp
    exact ⟨0, findList_of_isPrefixOf t u (by simpa using hp), Nat.le_refl 0⟩
  | succ n ih =>
    intro u hp
    cases u with
    | nil =>
      exact ⟨0, findList_of_isPrefixOf t [] (by simpa using hp), Nat.zero_le _⟩
    | cons c rest =>
      by_cases hx : t.isPrefixOf (c :: rest) = true
      · exact ⟨0, by simp [findList, hx], Nat.zero_le _⟩
      · have hp2 : t.isPrefixOf (rest.drop n) = true := by simpa using hp
        obtain ⟨k, hk, hkle⟩ := ih rest hp2
        exact ⟨k + 1, by simp [findList, hx, hk], Nat.succ_le_succ hkle⟩

theorem findList_isPrefixOf_drop (t : List Ch) :
    ∀ (u : List Ch) (k : Nat), findList t u = some k →
      t.isPrefixOf (u.drop k) = true ∧ k ≤ u.length := by
  intro u
  induction u with
  | nil =>
    intro k hk
    cases t with
    | nil =>
      simp [findList] at hk
      subst hk
      simp [List.isPrefixOf]
    | cons c cs => simp [findList] at hk
  | cons c rest ih =>
    intro k hk
    by_cases hx : t.isPrefixOf (c :: rest) = true
    · simp [findList, hx] at hk
      subst hk
      exact ⟨by simpa using hx, Nat.zero_le _⟩
    · simp [findList, hx] at hk
      obtain ⟨k2, hk2, hke⟩ := hk
      subst hke
      obtain ⟨hpre, hle⟩ := ih k2 hk2
      exact ⟨by simpa using hpre, by simpa using Nat.succ_le_succ hle⟩

theorem findFrom_sound (s t : List Ch) (pos k : Nat)
    (h : findFrom s t pos = some k) :
    pos ≤ k ∧ k ≤ s.length ∧ t.isPrefixOf (s.drop k) = true := by
  unfold findFrom at h
  by_cases hp : pos ≤ s.length
  · simp [hp] at h
    obtain ⟨k2, hk2, hke⟩ := h
    subst hke
    obtain ⟨hpre, hle⟩ := findList_isPrefixOf_drop t (s.drop pos) k2 hk2
    have hlen : (s.drop pos).length = s.length - pos := List.length_drop pos s
    rw [List.drop_drop] at hpre
    exact ⟨Nat.le_add_left pos k2, by omega,
      by rwa [Nat.add_comm pos k2] at hpre⟩
  · simp [hp] at h

/-- C7: for a string s and any contiguous slice t of s starting at i, find
locates t at a position at most i, and searching from offset i finds it
precisely at i; a pattern absent at or after the start offset yields the
npos sentinel, and a start offset beyond the size yields npos rather than
an error. -/
theorem find_law (s t : List Ch) (i j pos : Nat) :
    (i ≤ j → j ≤ s.length → t = (s.drop i).take (j - i) →
      (∃ k, findFrom s t 0 = some k ∧ k ≤ i) ∧ findFrom s t i = some i) ∧
    ((∀ k, k < s.length + 1 → pos ≤ k → t.isPrefixOf (s.drop k) = false) →
      findFrom s t pos = none) ∧
    (s.length < pos → findFrom s t pos = none) := by
  refine ⟨fun hij hjl ht => ?_, fun habs => ?_, fun hpos => ?_⟩
  · have hpre : t.isPrefixOf (s.drop i) = true := by
      rw [ht]
      exact List.isPrefixOf_iff_prefix.mpr (List.take_prefix _ _)
    constructor
    · obtain ⟨k, hk, hkle⟩ := findList_le_of_prefix_drop t i s hpre
      exact ⟨k, by simp [findFrom, hk], hkle⟩
    · have hil : i ≤ s.length := Nat.le_trans hij hjl
      simp [findFrom, hil, findList_of_isPrefixOf t (s.drop i) hpre]
  · cases e : findFrom s t pos with
    | none => rfl
    | some k =>
      obtain ⟨hpk, hkl, hpre⟩ := findFrom_sound s t pos k e
      have hfalse := habs k (Nat.lt_succ_of_le hkl) hpk
      simp [hpre] at hfalse
  · simp [findFrom, Nat.not_le.mpr hpos]

/-- C7 witness: the slice cddd of aaabbbcccddd starting at 8 is found at a
position at most 8 and exactly at 8 when searching from 8; the absent
pattern dc yields npos, and an offset beyond the size yields npos. -/
theorem find_law_witness :
    (∃ k, findFrom [97, 97, 97, 98, 98, 98, 99, 99, 99, 100, 100, 100]
        [99, 100, 100, 100] 0 = some k ∧ k ≤ 8) ∧
    findFrom [97, 97, 97, 98, 98, 98, 99, 99, 99, 100, 100, 100]
      [99, 100, 100, 100] 8 = some 8 ∧
    findFrom [97, 97, 97, 98, 98, 98, 99, 99, 99, 100, 100, 100]
      [100, 99] 0 = none ∧
    findFrom [97, 97, 97, 98, 98, 98, 99, 99, 99, 100, 100, 100]
      [97] 13 = none := by
  obtain ⟨hA, -, -⟩ :=
    find_law [97, 97, 97, 98, 98, 98, 99, 99, 99, 100, 100, 100]
      [99, 100, 100, 100] 8 12 0
  obtain ⟨hB1, hB2⟩ := hA (by decide) (by decide) (by decide)
  obtain ⟨-, hC, -⟩ :=
    find_law [97, 97, 97, 98, 98, 98, 99, 99, 99, 100, 100, 100]
      [100, 99] 0 0 0
  obtain ⟨-, -, hD⟩ :=
    find_law [97, 97, 97, 98, 98, 98, 99, 99, 99, 100, 100, 100]
      [97] 0 0 13
  exact ⟨hB1, hB2, hC (by decide), hD (by decide)⟩

theorem contents_acquire (h : Heap) (chars : List Ch) :
    (h.acquire chars).1.contents (h.acquire chars).2 = chars := by
  simp [Heap.acquire, Heap.contents, Heap.nextAddr]

theorem strChars_fromSeqCount (h : Heap) (cs : List Ch) (n : Nat) :
    strChars (fromSeqCount h cs n).1 (fromSeqCount h cs n).2 = cs.take n := by
  by_cases hn : n = 0
  · subst hn
    simp [fromSeqCount, strChars, emptyString, Heap.contents]
  · simp [fromSeqCount, hn, strChars]
    exact contents_acquire h (cs.take n)

theorem strChars_fromRepeat (h : Heap) (n : Nat) (c : Ch) :
    strChars (fromRepeat h n c).1 (fromRepeat h n c).2 = List.replicate n c := by
  by_cases hn : n = 0
  · subst hn
    simp [fromRepeat, strChars, emptyString, Heap.contents]
  · simp [fromRepeat, hn, strChars]
    exact contents_acquire h (List.replicate n c)

theorem cstrChars_of_no_zero (cs : List Ch) (hz : ∀ ch ∈ cs, ch ≠ 0) :
    cstrChars cs = cs := by
  induction cs with
  | nil => rfl
  | cons a as ih =>
    have ha : a ≠ 0 := hz a (by simp)
    have ih2 := ih (fun ch hch => hz ch (List.mem_cons_of_mem a hch))
    simpa [cstrChars, ha] using ih2

theorem strChars_fromCStr (h : Heap) (cs : List Ch) :
    strChars (fromCStr h cs).1 (fromCStr h cs).2 = cstrChars cs := by
  unfold fromCStr
  rw [strChars_fromSeqCount]
  exact (List.prefix_iff_eq_take.mp
    (List.takeWhile_prefix (fun c => c ≠ 0))).symm

theorem iterChars_eq (v : List Ch) : iterChars v = v := by
  apply List.ext_getElem
  · simp [iterChars]
  · intro i h1 h2
    simp only [iterChars, List.getElem_map, List.getElem_range]
    show (v ++ [0]).getD i 0 = v[i]
    rw [List.getD_append v [0] 0 i h2]
    exact List.getD_eq_getElem v 0 h2

theorem riterChars_eq (v : List Ch) : riterChars v = v.reverse := by
  apply List.ext_getElem
  · simp [riterChars]
  · intro i h1 h2
    have hi : i < v.length := by simpa using h2
    have hlt : v.length - 1 - i < v.length := by omega
    simp only [riterChars, List.getElem_map, List.getElem_range]
    show (v ++ [0]).getD (v.length - 1 - i) 0 = v.reverse[i]
    rw [List.getD_append v [0] 0 _ hlt, List.getElem_reverse,
      List.getD_eq_getElem v 0 hlt]

/-- C8: constructing from a sequence of length n and reading the content
back reproduces the sequence exactly (also with embedded zero characters
through length-bounded construction); the explicit-count constructor keeps
exactly the first n characters, the inferred-length constructor reproduces
any zero-free sequence, the repeat constructor produces n copies of the
fill character, forward iteration over the positions reproduces the
content, and reverse iteration reproduces the reversed content. -/
theorem roundtrip_law (h : Heap) (cs : List Ch) (n : Nat) (c : Ch) :
    strChars (fromSeqCount h cs cs.length).1
      (fromSeqCount h cs cs.length).2 = cs ∧
    strChars (fromSeqCount h cs n).1 (fromSeqCount h cs n).2 = cs.take n ∧
    ((∀ ch ∈ cs, ch ≠ 0) →
      strChars (fromCStr h cs).1 (fromCStr h cs).2 = cs) ∧
    strChars (fromRepeat h n c).1 (fromRepeat h n c).2 =
      List.replicate n c ∧
    iterChars cs = cs ∧
    riterChars cs = cs.reverse := by
  refine ⟨?_, strChars_fromSeqCount h cs n, fun hz => ?_,
    strChars_fromRepeat h n c, iterChars_eq cs, riterChars_eq cs⟩
  · rw [strChars_fromSeqCount]
    exact List.take_length cs
  · rw [strChars_fromCStr]
    exact cstrChars_of_no_zero cs hz

/-- C8 witness: the string built from test with count 2 has content te, the
string built from test has content test, and the string of five repeated
1 characters has content 11111. -/
theorem roundtrip_law_witness :
    strChars (fromSeqCount ⟨0, [], fun _ => 0⟩ [116, 101, 115, 116] 2).1
      (fromSeqCount ⟨0, [], fun _ => 0⟩ [116, 101, 115, 116] 2).2 =
        [116, 101] ∧
    strChars (fromCStr ⟨0, [], fun _ => 0⟩ [116, 101, 115, 116]).1
      (fromCStr ⟨0, [], fun _ => 0⟩ [116, 101, 115, 116]).2 =
        [116, 101, 115, 116] ∧
    strChars (fromRepeat ⟨0, [], fun _ => 0⟩ 5 49).1
      (fromRepeat ⟨0, [], fun _ => 0⟩ 5 49).2 = [49, 49, 49, 49, 49] := by
  obtain ⟨-, h2, h3, -, -, -⟩ :=
    roundtrip_law ⟨0, [], fun _ => 0⟩ [116, 101, 115, 116] 2 49
  obtain ⟨-, -, -, h4, -, -⟩ :=
    roundtrip_law ⟨0, [], fun _ => 0⟩ [] 5 49
  exact ⟨by simpa using h2, h3 (by decide), by simpa using h4⟩

/-- C9: copy, move, comparison, iteration and search are total over their
domains: compare always returns one of the three signs, find either
returns npos or a position between the offset and the size, iteration
always yields exactly size characters, and assignment in either flavour
leaves the content of every live string intact (none of these operations
has an error channel, mirroring the nothrow guarantees of the type). -/
theorem total_operations (h : Heap) (a dst : ImmString) (u t : List Ch)
    (pos : Nat) :
    (strCompare u t = -1 ∨ strCompare u t = 0 ∨ strCompare u t = 1) ∧
    (∀ k, findFrom u t pos = some k → pos ≤ k ∧ k ≤ u.length) ∧
    (iterChars u).length = u.length ∧
    (riterChars u).length = u.length ∧
    (∀ s : ImmString, strChars (copyAssign h dst a).1 s = strChars h s) ∧
    (∀ s : ImmString, strChars (moveAssign h dst a).1 s = strChars h s) := by
  refine ⟨strCompare_trichotomy u t, fun k hk => ?_, ?_, ?_, fun s => ?_,
    fun s => ?_⟩
  · obtain ⟨h1, h2, -⟩ := findFrom_sound u t pos k hk
    exact ⟨h1, h2⟩
  · simp [iterChars]
  · simp [riterChars]
  · obtain ⟨ha⟩ := a
    obtain ⟨hd⟩ := dst
    cases ha <;> cases hd <;> simp [copyAssign]
  · obtain ⟨hd⟩ := dst
    cases hd <;> simp [moveAssign]

/-- C9 witness: searching for the character b in ab from offset 1 succeeds
at position 1, which lies between the offset and the size. -/
theorem total_operations_witness :
    (1 : Nat) ≤ 1 ∧ 1 ≤ List.length [97, 98] := by
  obtain ⟨-, hf, -, -, -, -⟩ :=
    total_operations ⟨0, [], fun _ => 0⟩ ⟨none⟩ ⟨none⟩ [97, 98] [98] 1
  exact hf 1 (by decide)

/-- C10: find with an explicit length limit n searches for exactly the
first n characters of the given raw sequence; on aaabbbcccddd the pattern
ad limited to length 1 is found at position 0 although ad itself never
occurs as a substring. -/
theorem find_length_limit (s seq : List Ch) (pos n : Nat) :
    findRawN s seq pos n = findFrom s (seq.take n) pos ∧
    findRawN [97, 97, 97, 98, 98, 98, 99, 99, 99, 100, 100, 100]
      [97, 100] 0 1 = some 0 ∧
    findRaw [97, 97, 97, 98, 98, 98, 99, 99, 99, 100, 100, 100]
      [97, 100] 0 = none := by
  exact ⟨rfl, by decide, by decide⟩

end ImmutStr
